import Mathlib

/-!
Verification of the mini-slate document core: a shallow embedding of the
path algebra, the path-rebasing rules, the dirty-path computation, the node
transforms and the normalizer, together with theorems settling the claims
of the specification against this embedding.

Paths are JavaScript number arrays in the source; they are modelled as
`List Int` so that out-of-range results such as a `-1` component (which the
source can produce) are representable.
-/

namespace Slate

/-- A document path: the sequence of child indices from the root to a node. -/
abbrev Path := List Int

namespace Path

/-- `Path.compare`: lexicographic comparison over the shared-length prefix;
returns 0 when each path is a prefix of the other up to the shorter length
(equal, ancestor or descendant). -/
def compare : Path → Path → Int
  | [], _ => 0
  | _ :: _, [] => 0
  | a :: xs, b :: ys => if a < b then -1 else if b < a then 1 else compare xs ys

/-- `Path.equals`: componentwise equality (same length, same entries). -/
def equals (a b : Path) : Bool := a == b

/-- `Path.isAncestor`: `a` is a strict prefix of `b` (shorter, compare 0). -/
def isAncestor (a b : Path) : Bool :=
  decide (a.length < b.length) && (compare a b == 0)

/-- `Path.endsBefore`: with `i = a.length - 1`, the source compares
`a.slice(0, i)` with `b.slice(0, i)` and `a[i]` with `b[i]`.  For the empty
path both indexed reads are undefined and the numeric comparison is false. -/
def endsBefore : Path → Path → Bool
  | [], _ => false
  | a, b =>
      let i := a.length - 1
      decide (a.dropLast = b.take i) &&
        match b[i]? with
        | some bv => decide (a.getLastD 0 < bv)
        | none => false

/-- Adjust the last component of a path by `d`, as the source statement
`p[p.length - 1] += d` does.  On the empty path the source writes to array
index -1, which adds no integer entry, so the path is observably unchanged. -/
def bumpLast : Path → Int → Path
  | [], _ => []
  | p, d => p.dropLast ++ [p.getLastD 0 + d]

/-- Adjust the component at index `i` by `d`, as the source statement
`p[i] += d` does.  Every reachable call site has `i < p.length`. -/
def bumpAt (p : Path) (i : Nat) (d : Int) : Path :=
  p.set i (p.getD i 0 + d)

/-- `Path.next`: the next sibling path.  The source throws on the root
(empty) path, modelled as `none`. -/
def next : Path → Option Path
  | [] => none
  | p => some (bumpLast p 1)

/-- `Path.previous`: the previous sibling path.  The source throws on the
root (empty) path, modelled as `none`; it does not otherwise validate, so a
last component of 0 yields a component of -1. -/
def previous : Path → Option Path
  | [] => none
  | p => some (bumpLast p (-1))

/-- `Path.levels`: every prefix of `p`, shortest first, including `p`. -/
def levels (p : Path) : List Path :=
  (List.range (p.length + 1)).map fun i => p.take i

/-- `Path.ancestors`: every strict prefix of `p`, shortest first. -/
def ancestors (p : Path) : List Path :=
  (levels p).dropLast

/-- A path all of whose components are non-negative indices.  The data
model only admits such paths. -/
def isValid (p : Path) : Bool := p.all fun x => decide (0 ≤ x)

end Path

/-- The affinity option of `Path.transform`: `'forward'`, `'backward'` or
`null`.  The source defaults to forward when no option is given. -/
inductive Affinity where
  | forward
  | backward
  | null
deriving DecidableEq

/-- A document node: a text leaf (text plus formatting-mark properties) or
an element (properties plus an ordered list of children).  Property values
are modelled as integers. -/
inductive SNode where
  | text (s : String) (props : List (String × Int))
  | element (props : List (String × Int)) (children : List SNode)

/-- The atomic operations, as consumed by the embedded functions.  Payload
fields that no embedded function reads are omitted. -/
inductive Operation where
  | insert_node (path : Path) (node : SNode)
  | remove_node (path : Path)
  | set_node (path : Path) (newProperties : List (String × Int))
  | split_node (path : Path) (position : Int)
  | merge_node (path : Path) (position : Int)
  | insert_text (path : Path) (offset : Int) (text : String)
  | remove_text (path : Path) (offset : Int) (text : String)
  | set_selection

/-- `Path.transform`: how a (possibly null) path is rebased through one
operation.  Direct translation of the source switch; the source contains a
second, unreachable `remove_node` case, so only the first one is embedded.
For `split_node` at the same path the affinity decides; for `split_node`
ending before the path the component at index `op.path.length - 1` is
incremented. -/
def Path.transform (p : Option Path) (op : Operation) (affinity : Affinity) :
    Option Path :=
  match p with
  | none => none
  | some p =>
    match op with
    | Operation.insert_node ip _ =>
        if Path.equals ip p || Path.endsBefore ip p then
          some (Path.bumpLast p 1)
        else some p
    | Operation.remove_node rp =>
        if Path.equals rp p || Path.isAncestor rp p then none
        else if Path.endsBefore rp p then some (Path.bumpLast p (-1))
        else some p
    | Operation.split_node sp _ =>
        if Path.equals sp p then
          match affinity with
          | Affinity.forward => some (Path.bumpLast p 1)
          | Affinity.backward => some p
          | Affinity.null => none
        else if Path.endsBefore sp p then
          some (Path.bumpAt p (sp.length - 1) 1)
        else some p
    | Operation.merge_node mp _ =>
        if Path.equals mp p || Path.endsBefore mp p then
          some (Path.bumpLast p (-1))
        else some p
    | _ => some p

/-- `getDirtyPaths`: the paths whose invariants an operation may have
broken.  `Path.next` and `Path.previous` throw on the root path, modelled
by propagating `none`. -/
def getDirtyPaths : Operation → Option (List Path)
  | Operation.split_node path _ =>
      (Path.next path).map fun nextPath => Path.levels path ++ [nextPath]
  | Operation.insert_text path _ _ => some (Path.levels path)
  | Operation.remove_text path _ _ => some (Path.levels path)
  | Operation.set_node path _ => some (Path.levels path)
  | Operation.insert_node path _ => some (Path.levels path)
  | Operation.merge_node path _ =>
      (Path.previous path).map fun prev => prev :: Path.ancestors path
  | Operation.remove_node path => some (Path.ancestors path)
  | Operation.set_selection => some []

/-- A point: a path plus a character offset into that leaf. -/
structure Point where
  path : Path
  offset : Int
deriving DecidableEq

/-- A range: an ordered pair of points. -/
structure Range where
  anchor : Point
  focus : Point
deriving DecidableEq

/-- Modelled from the spec: `Range.isCollapsed` — the range interface is not
among the sources; the spec defines a collapsed range as one whose anchor
and focus coincide. -/
def Range.isCollapsed (r : Range) : Bool := r.anchor == r.focus

/-- Modelled from the spec: the rebasing of a point reference through an
`insert_node` operation — the point-ref interface is not among the sources;
the spec says point references rebase their path via `Path.transform` and
recompute offsets only when splits or merges happen at the exact path, so
under `insert_node` the offset is unchanged. -/
def Point.transformInsertNode (pt : Point) (ip : Path) (node : SNode)
    (affinity : Affinity) : Option Point :=
  (Path.transform (some pt.path) (Operation.insert_node ip node) affinity).map
    fun q => Point.mk q pt.offset

/-- Modelled from the spec: `Node.get` — fetch the node at a path, `none`
when the path does not resolve (the source throws). -/
def SNode.get? : SNode → Path → Option SNode
  | n, [] => some n
  | SNode.text _ _, _ :: _ => none
  | SNode.element _ children, i :: rest =>
      if 0 ≤ i then
        match children[i.toNat]? with
        | some c => SNode.get? c rest
        | none => none
      else none

/-- Replace the node at a path by the result of `f`, `none` when the path
does not resolve or `f` fails. -/
def SNode.updateAt? : SNode → Path → (SNode → Option SNode) → Option SNode
  | n, [], f => f n
  | SNode.text _ _, _ :: _, _ => none
  | SNode.element props children, i :: rest, f =>
      if 0 ≤ i then
        match children[i.toNat]? with
        | some c =>
            match SNode.updateAt? c rest f with
            | some c2 => some (SNode.element props (children.set i.toNat c2))
            | none => none
        | none => none
      else none

/-- Rewrite the child list of the parent of `p`, handing the parent's
children and the final index of `p` to `f`.  `none` when `p` is the root,
the parent is not an element, or `f` fails. -/
def SNode.childOp? (t : SNode) (p : Path)
    (f : List SNode → Int → Option (List SNode)) : Option SNode :=
  if p = [] then none
  else
    SNode.updateAt? t p.dropLast fun n =>
      match n with
      | SNode.element props children =>
          (f children (p.getLastD 0)).map fun cs => SNode.element props cs
      | SNode.text _ _ => none

/-- Modelled from the spec: the structural effect of `insert_node` — insert
the node at the given path among its parent's children. -/
def SNode.insertAt (t : SNode) (p : Path) (node : SNode) : Option SNode :=
  SNode.childOp? t p fun cs i =>
    if 0 ≤ i ∧ i ≤ (cs.length : Int) then
      some (cs.take i.toNat ++ node :: cs.drop i.toNat)
    else none

/-- Modelled from the spec: the structural effect of `remove_node` — remove
the node at the given path from its parent's children. -/
def SNode.removeAt (t : SNode) (p : Path) : Option SNode :=
  SNode.childOp? t p fun cs i =>
    if 0 ≤ i ∧ i < (cs.length : Int) then
      some (cs.take i.toNat ++ cs.drop (i.toNat + 1))
    else none

/-- Modelled from the spec: the structural effect of `split_node` — the node
at the path is replaced by two halves, split at `position` (a character
offset for a text leaf, a child index for an element). -/
def SNode.splitAt (t : SNode) (p : Path) (position : Int) : Option SNode :=
  SNode.childOp? t p fun cs i =>
    if 0 ≤ i then
      match cs[i.toNat]? with
      | some (SNode.text s tp) =>
          if 0 ≤ position ∧ position ≤ (s.length : Int) then
            some (cs.take i.toNat ++ SNode.text (s.take position.toNat) tp ::
              SNode.text (s.drop position.toNat) tp :: cs.drop (i.toNat + 1))
          else none
      | some (SNode.element ep ec) =>
          if 0 ≤ position ∧ position ≤ (ec.length : Int) then
            some (cs.take i.toNat ++ SNode.element ep (ec.take position.toNat) ::
              SNode.element ep (ec.drop position.toNat) :: cs.drop (i.toNat + 1))
          else none
      | none => none
    else none

/-- Modelled from the spec: the structural effect of `merge_node` — the node
at the path is absorbed into its previous sibling (texts concatenate their
text, elements concatenate their children). -/
def SNode.mergeAt (t : SNode) (p : Path) : Option SNode :=
  SNode.childOp? t p fun cs i =>
    if 1 ≤ i then
      match cs[i.toNat - 1]?, cs[i.toNat]? with
      | some (SNode.text s1 p1), some (SNode.text s2 _) =>
          some (cs.take (i.toNat - 1) ++ SNode.text (s1 ++ s2) p1 ::
            cs.drop (i.toNat + 1))
      | some (SNode.element p1 c1), some (SNode.element _ c2) =>
          some (cs.take (i.toNat - 1) ++ SNode.element p1 (c1 ++ c2) ::
            cs.drop (i.toNat + 1))
      | _, _ => none
    else none

/-- Modelled from the spec: `set_node` rewrites the properties of the node
at the path; new bindings shadow old ones. -/
def mergeProps (old new : List (String × Int)) : List (String × Int) :=
  (old.map fun kv =>
    match new.lookup kv.1 with
    | some v => (kv.1, v)
    | none => kv) ++ new.filter fun kv => (old.lookup kv.1).isNone

/-- Modelled from the spec: the effect of `set_node` on the tree. -/
def SNode.setAt (t : SNode) (p : Path) (newProps : List (String × Int)) :
    Option SNode :=
  SNode.updateAt? t p fun n =>
    match n with
    | SNode.text s props => some (SNode.text s (mergeProps props newProps))
    | SNode.element props children =>
        some (SNode.element (mergeProps props newProps) children)

/-- Modelled from the spec: the effect of a text edit on the leaf at the
path. -/
def SNode.textEdit? (t : SNode) (p : Path) (f : String → String) :
    Option SNode :=
  SNode.updateAt? t p fun n =>
    match n with
    | SNode.text s props => some (SNode.text (f s) props)
    | SNode.element _ _ => none

/-- Modelled from the spec: `Transforms.transform` — the structural effect
of one operation on the tree (the general-transform module is not among the
sources; the spec specifies insert/remove/set/split/merge at the given path,
with `set_selection` leaving the tree untouched). -/
def applyOp? (t : SNode) : Operation → Option SNode
  | Operation.insert_node path node => SNode.insertAt t path node
  | Operation.remove_node path => SNode.removeAt t path
  | Operation.set_node path newProps => SNode.setAt t path newProps
  | Operation.split_node path position => SNode.splitAt t path position
  | Operation.merge_node path _ => SNode.mergeAt t path
  | Operation.insert_text path offset s =>
      SNode.textEdit? t path fun cur =>
        cur.take offset.toNat ++ s ++ cur.drop offset.toNat
  | Operation.remove_text path offset s =>
      SNode.textEdit? t path fun cur =>
        cur.take offset.toNat ++ cur.drop (offset.toNat + s.length)
  | Operation.set_selection => some t

/-- Apply a list of operations to a tree in order. -/
def applyOps? (t : SNode) (ops : List Operation) : Option SNode :=
  ops.foldlM applyOp? t

/-- Modelled from the spec: `Editor.isEdge(editor, point, point.path)` — the
editor query interface is not among the sources; the spec defines the edge
test as the point sitting at offset 0 or at offset equal to the length of
the text of its leaf. -/
def isEdge (t : SNode) (pt : Point) : Bool :=
  match SNode.get? t pt.path with
  | some (SNode.text s _) =>
      pt.offset == 0 || pt.offset == (s.length : Int)
  | _ => false

/-- `Transforms.splitNodes`: the operations it applies — none when the point
is at an edge of its leaf, otherwise a single `split_node` at the point's
path with the point's offset as position. -/
def splitNodesOps (t : SNode) (pt : Point) : List Operation :=
  if isEdge t pt then [] else [Operation.split_node pt.path pt.offset]

/-- Modelled from the spec: `PathRef.transform` — the path-ref interface is
not among the sources; the spec says path references are rebased via
`Path.transform`, whose affinity defaults to forward when no option is
given. -/
def pathRefTransform (p : Option Path) (op : Operation) : Option Path :=
  Path.transform p op Affinity.forward

/-- The path computation of the point branch of `Transforms.insertNode`: it
records `isAtEnd := Editor.isEdge(editor, at, at.path)`, creates a path ref
on `at.path`, runs `Transforms.splitNodes` at `at`, takes the ref's value
`path`, and issues the insert at `isAtEnd ? Path.next(path) : path`.  A
dead ref (the non-null assertion on `unref()`) and `Path.next` of the root
are modelled as `none`. -/
def insertNodePointTarget (t : SNode) (pt : Point) : Option Path :=
  let isAtEnd := isEdge t pt
  match (splitNodesOps t pt).foldl pathRefTransform (some pt.path) with
  | some path => if isAtEnd then Path.next path else some path
  | none => none

/-- The transform calls issued by `normalizeNode`. -/
inductive NTCall where
  | insertNode (node : SNode) (path : Path)
  | mergeNodes (path : Path) (position : Int)
  | removeNode (path : Path)

/-- The tree effect of the transforms invoked by `normalizeNode`:
`Transforms.insertNode` called with a `Path` location applies a single
`insert_node` there (it also selects the end of the inserted node, which
only changes the selection, not the tree); `Transforms.mergeNodes` applies
`merge_node`; `Transforms.removeNode` applies `remove_node`. -/
def applyNTCall? (t : SNode) : NTCall → Option SNode
  | NTCall.insertNode node path => applyOp? t (Operation.insert_node path node)
  | NTCall.mergeNodes path position =>
      applyOp? t (Operation.merge_node path position)
  | NTCall.removeNode path => applyOp? t (Operation.remove_node path)

/-- The child scan of `normalizeNode` (its rule 2): iterate over the entry
node's original children with logical index `n` into the current element,
merging adjacent text leaves with equal properties (position = length of
the earlier text) and removing a later empty text leaf; after a merge or a
removal the loop re-examines the same logical index.  Elements and other
combinations are left alone.  A transform failure (the source would throw)
is `none`. -/
def normalizeLoop (path : Path) :
    List SNode → Nat → SNode → List NTCall → Option (SNode × List NTCall)
  | [], _, t, calls => some (t, calls)
  | child :: rest, n, t, calls =>
      let prev : Option SNode :=
        match SNode.get? t path with
        | some (SNode.element _ cs) => if n = 0 then none else cs[n - 1]?
        | _ => none
      match child, prev with
      | SNode.text ct cp, some (SNode.text pt pp) =>
          if cp = pp then
            match applyNTCall? t
                (NTCall.mergeNodes (path ++ [(n : Int)]) (pt.length : Int)) with
            | some t2 =>
                normalizeLoop path rest n t2
                  (calls ++ [NTCall.mergeNodes (path ++ [(n : Int)])
                    (pt.length : Int)])
            | none => none
          else if ct = "" then
            match applyNTCall? t (NTCall.removeNode (path ++ [(n : Int)])) with
            | some t2 =>
                normalizeLoop path rest n t2
                  (calls ++ [NTCall.removeNode (path ++ [(n : Int)])])
            | none => none
          else normalizeLoop path rest (n + 1) t calls
      | _, _ => normalizeLoop path rest (n + 1) t calls

/-- `normalizeNode` on an entry `(node, path)` against the current tree:
text entries are left alone; an element with zero children gets a single
empty text leaf inserted at `path.concat(0)` (rule 1, after which the
source returns); otherwise the child scan runs (rule 2).  Returns the
updated tree and the transform calls issued. -/
def normalizeNode? (t : SNode) (node : SNode) (path : Path) :
    Option (SNode × List NTCall) :=
  match node with
  | SNode.text _ _ => some (t, [])
  | SNode.element _ children =>
      if children.length = 0 then
        match applyNTCall? t
            (NTCall.insertNode (SNode.text "" []) (path ++ [0])) with
        | some t2 =>
            some (t2, [NTCall.insertNode (SNode.text "" []) (path ++ [0])])
        | none => none
      else normalizeLoop path children 0 t []

/-- The notification-relevant slice of the editor state: the operation log,
the number of flush microtasks scheduled and not yet run, and counters for
the observable events. -/
structure ApplyState where
  operations : List Operation
  pendingFlushes : Nat
  onChangeCalls : Nat
  logResets : Nat

/-- The logging and notification part of `editor.apply`: the operation is
pushed onto `editor.operations` and a fresh microtask is scheduled via
`Promise.resolve().then(...)`; each scheduled microtask, when run, invokes
`onChange` and resets the operation log.  (Reference rebasing, dirty-path
bookkeeping and the structural mutation touch neither the log nor the
schedule.) -/
def applySchedule (st : ApplyState) (op : Operation) : ApplyState :=
  { st with
    operations := st.operations ++ [op]
    pendingFlushes := st.pendingFlushes + 1 }

/-- Run `n` pending flush microtasks in order: each invokes `onChange` and
resets the operation log. -/
def runMicrotasks : Nat → ApplyState → ApplyState
  | 0, st => st
  | n + 1, st =>
      runMicrotasks n
        { st with
          onChangeCalls := st.onChangeCalls + 1
          operations := []
          logResets := st.logResets + 1 }

/-- The end of a synchronous turn: every microtask scheduled during the turn
runs. -/
def endTurn (st : ApplyState) : ApplyState :=
  { runMicrotasks st.pendingFlushes st with pendingFlushes := 0 }

/-- The mark-relevant slice of the editor state: the selection, the pending
marks, the operations applied to the tree, the number of direct `onChange`
invocations, and a record of delegations to `Transforms.setNode`. -/
structure MarkEditorState where
  selection : Option Range
  marks : Option (List (String × Int))
  operationsApplied : List Operation
  onChangeCalls : Nat
  setNodeCalls : List (String × Int)

/-- `editor.addMark`: with no selection, nothing happens; with a collapsed
selection, `editor.marks` is set to the single-entry object for the key and
`editor.onChange()` is invoked directly; otherwise the call delegates to
`Transforms.setNode` with that single-entry object. -/
def addMark (st : MarkEditorState) (key : String) (value : Int) :
    MarkEditorState :=
  match st.selection with
  | none => st
  | some selection =>
      if Range.isCollapsed selection then
        { st with
          marks := some [(key, value)]
          onChangeCalls := st.onChangeCalls + 1 }
      else
        { st with setNodeCalls := st.setNodeCalls ++ [(key, value)] }

/-! Helper lemmas about the path algebra. -/

theorem Path.equals_iff (a b : Path) : Path.equals a b = true ↔ a = b := by
  simp [Path.equals]

theorem Path.equals_self (a : Path) : Path.equals a a = true := by
  simp [Path.equals]

theorem Path.bumpLast_of_ne_nil (p : Path) (d : Int) (h : p ≠ []) :
    Path.bumpLast p d = p.dropLast ++ [p.getLastD 0 + d] := by
  cases p with
  | nil => exact absurd rfl h
  | cons a l => rfl

theorem Path.getElem?_last (p : Path) (h : p ≠ []) :
    p[p.length - 1]? = some (p.getLastD 0) := by
  cases hq : p.getLast? with
  | none => exact absurd (List.getLast?_eq_none_iff.mp hq) h
  | some x =>
      have h1 : p[p.length - 1]? = some x := by
        rw [← List.getLast?_eq_getElem?]
        exact hq
      rw [h1, List.getLastD_eq_getLast?, hq]
      rfl

theorem Path.compare_self (p : Path) : Path.compare p p = 0 := by
  induction p with
  | nil => rfl
  | cons a l ih => simp [Path.compare, ih]

theorem Path.compare_cons_elim (a b : Int) (xs ys : Path)
    (h : Path.compare (a :: xs) (b :: ys) = 0) :
    a = b ∧ Path.compare xs ys = 0 := by
  by_cases hab : a < b
  · simp [Path.compare, hab] at h
  · by_cases hba : b < a
    · simp [Path.compare, hab, hba] at h
    · exact ⟨le_antisymm (not_lt.mp hba) (not_lt.mp hab), by
        simpa [Path.compare, hab, hba] using h⟩

theorem Path.take_eq_of_compare_zero :
    ∀ (a b : Path), Path.compare a b = 0 → a.length ≤ b.length →
      b.take a.length = a
  | [], _, _, _ => by simp
  | _ :: _, [], _, hlen => by simp at hlen
  | a :: xs, b :: ys, h, hlen => by
      obtain ⟨hab, hrest⟩ := Path.compare_cons_elim a b xs ys h
      simp only [List.length_cons, List.take_succ_cons]
      rw [Path.take_eq_of_compare_zero xs ys hrest
        (Nat.succ_le_succ_iff.mp hlen), hab]

theorem Path.endsBefore_elim (a b : Path) (h : Path.endsBefore a b = true) :
    a ≠ [] ∧ a.dropLast = b.take (a.length - 1) ∧
      ∃ bv, b[a.length - 1]? = some bv ∧ a.getLastD 0 < bv := by
  match a with
  | [] => simp [Path.endsBefore] at h
  | x :: xs =>
      refine ⟨by simp, ?_⟩
      simp only [Path.endsBefore, Bool.and_eq_true, decide_eq_true_eq] at h
      cases hbv : (b[(x :: xs).length - 1]?) with
      | none => rw [hbv] at h; exact absurd h.2 (by simp)
      | some bv =>
          rw [hbv] at h
          exact ⟨h.1, bv, rfl, by simpa using h.2⟩

theorem Path.length_le_of_endsBefore (a b : Path)
    (h : Path.endsBefore a b = true) : a.length ≤ b.length := by
  obtain ⟨hne, _, bv, hbv, _⟩ := Path.endsBefore_elim a b h
  have hlt : a.length - 1 < b.length := by
    have := List.getElem?_eq_some.mp hbv
    exact this.1
  have hpos : 0 < a.length := List.length_pos.mpr hne
  omega

theorem Path.take_ne_of_endsBefore (a b : Path)
    (h : Path.endsBefore a b = true) : b.take a.length ≠ a := by
  obtain ⟨hne, _, bv, hbv, hlt⟩ := Path.endsBefore_elim a b h
  intro heq
  have hidx : a.length - 1 < a.length :=
    Nat.sub_lt (List.length_pos.mpr hne) Nat.one_pos
  have h1 : (b.take a.length)[a.length - 1]? = b[a.length - 1]? :=
    List.getElem?_take_of_lt hidx
  rw [heq, Path.getElem?_last a hne, hbv] at h1
  have : a.getLastD 0 = bv := by injection h1
  omega

theorem Path.ne_of_endsBefore (a b : Path)
    (h : Path.endsBefore a b = true) : a ≠ b := by
  intro heq
  subst heq
  exact Path.take_ne_of_endsBefore a a h (by simp)

theorem Path.equals_false_of_endsBefore (a b : Path)
    (h : Path.endsBefore a b = true) : Path.equals a b = false := by
  have := Path.ne_of_endsBefore a b h
  simp [Path.equals, this]

theorem Path.isAncestor_false_of_endsBefore (a b : Path)
    (h : Path.endsBefore a b = true) : Path.isAncestor a b = false := by
  by_contra hcon
  have htrue : Path.isAncestor a b = true := by
    cases hv : Path.isAncestor a b with
    | false => exact absurd hv hcon
    | true => rfl
  simp only [Path.isAncestor, Bool.and_eq_true, decide_eq_true_eq,
    beq_iff_eq] at htrue
  exact Path.take_ne_of_endsBefore a b h
    (Path.take_eq_of_compare_zero a b htrue.2 (le_of_lt htrue.1))

theorem Path.endsBefore_nil_left (b : Path) : Path.endsBefore [] b = false :=
  rfl

/-! Theorems settling the claims. -/

/-- C1: rebasing a path `p` through `split_node` at `sp`: when `p = sp`,
forward affinity increments the last component, backward affinity leaves
the path unchanged, and a null affinity destroys the reference; when `sp`
ends before `p`, the component of `p` at depth `sp.length - 1` is
incremented; every other path is unchanged. -/
theorem split_node_transform_cases (p sp : Path) (pos : Int) :
    (p = sp → p ≠ [] →
      Path.transform (some p) (Operation.split_node sp pos) Affinity.forward
          = some (p.dropLast ++ [p.getLastD 0 + 1]) ∧
      Path.transform (some p) (Operation.split_node sp pos) Affinity.backward
          = some p ∧
      Path.transform (some p) (Operation.split_node sp pos) Affinity.null
          = none) ∧
    (∀ aff : Affinity, Path.endsBefore sp p = true →
      Path.transform (some p) (Operation.split_node sp pos) aff
          = some (p.set (sp.length - 1) (p.getD (sp.length - 1) 0 + 1))) ∧
    (∀ aff : Affinity, p ≠ sp → Path.endsBefore sp p = false →
      Path.transform (some p) (Operation.split_node sp pos) aff = some p) := by
  refine ⟨?_, ?_, ?_⟩
  · intro hps hne
    subst hps
    simp [Path.transform, Path.equals_self, Path.bumpLast_of_ne_nil p 1 hne]
  · intro aff heb
    have hne := Path.ne_of_endsBefore sp p heb
    have heq : Path.equals sp p = false := Path.equals_false_of_endsBefore sp p heb
    simp [Path.transform, heq, heb, Path.bumpAt]
  · intro aff hne heb
    have heq : Path.equals sp p = false := by
      simp only [Path.equals, beq_eq_false_iff_ne, ne_eq]
      exact fun hh => hne hh.symm
    simp [Path.transform, heq, heb]

/-- C1 witness: the theorem applied at concrete inputs covering all three
affinities at the equal path and the ends-before case. -/
theorem split_node_transform_cases_witness :
    Path.transform (some [1, 2]) (Operation.split_node [1, 2] 7)
        Affinity.forward = some [1, 3] ∧
    Path.transform (some [1, 2]) (Operation.split_node [1, 2] 7)
        Affinity.null = none ∧
    Path.transform (some [1, 2, 5]) (Operation.split_node [1, 1] 7)
        Affinity.forward = some [1, 3, 5] ∧
    Path.transform (some [2]) (Operation.split_node [1, 0] 7)
        Affinity.forward = some [2] := by
  have h1 := (split_node_transform_cases [1, 2] [1, 2] 7).1 rfl (by decide)
  have h2 := (split_node_transform_cases [1, 2, 5] [1, 1] 7).2.1
    Affinity.forward (by decide)
  have h3 := (split_node_transform_cases [2] [1, 0] 7).2.2
    Affinity.forward (by decide) (by decide)
  refine ⟨by simpa using h1.1, h1.2.2, by simpa using h2, h3⟩

/-- C2: rebasing a path `p` through `remove_node` at `rp`: when `p = rp` or
`rp` is a strict ancestor of `p` the reference is destroyed; when `rp` ends
before `p` the last component is decremented; every other path is
unchanged.  In particular `[0, 0]` through `remove_node` at `[0]` is
destroyed. -/
theorem remove_node_transform_cases (p rp : Path) (aff : Affinity) :
    ((p = rp ∨ Path.isAncestor rp p = true) →
      Path.transform (some p) (Operation.remove_node rp) aff = none) ∧
    (Path.endsBefore rp p = true →
      Path.transform (some p) (Operation.remove_node rp) aff
          = some (p.dropLast ++ [p.getLastD 0 - 1])) ∧
    (p ≠ rp → Path.isAncestor rp p = false → Path.endsBefore rp p = false →
      Path.transform (some p) (Operation.remove_node rp) aff = some p) ∧
    Path.transform (some [0, 0]) (Operation.remove_node [0]) aff = none := by
  refine ⟨?_, ?_, ?_, ?_⟩
  · rintro (heq | hanc)
    · subst heq
      simp [Path.transform, Path.equals_self]
    · simp [Path.transform, hanc]
  · intro heb
    have heq : Path.equals rp p = false := Path.equals_false_of_endsBefore rp p heb
    have hanc : Path.isAncestor rp p = false :=
      Path.isAncestor_false_of_endsBefore rp p heb
    have hpne : p ≠ [] := by
      intro hnil
      subst hnil
      have := Path.length_le_of_endsBefore rp [] heb
      have := (Path.endsBefore_elim rp [] heb).1
      cases rp with
      | nil => exact this rfl
      | cons a l => simp at *
    simp [Path.transform, heq, hanc, heb, Path.bumpLast_of_ne_nil p (-1) hpne,
      Int.sub_eq_add_neg]
  · intro hne hanc heb
    have heq : Path.equals rp p = false := by
      simp only [Path.equals, beq_eq_false_iff_ne, ne_eq]
      exact fun hh => hne hh.symm
    simp [Path.transform, heq, hanc, heb]
  · simp [Path.transform, Path.isAncestor, Path.compare, Path.equals]

/-- C2 witness: the theorem applied at concrete inputs, including the
`[0, 0]` through `remove_node` at `[0]` example. -/
theorem remove_node_transform_cases_witness :
    Path.transform (some [0, 0]) (Operation.remove_node [0])
        Affinity.forward = none ∧
    Path.transform (some [3]) (Operation.remove_node [1])
        Affinity.forward = some [2] ∧
    Path.transform (some [1]) (Operation.remove_node [2])
        Affinity.forward = some [1] := by
  have h1 := (remove_node_transform_cases [0, 0] [0] Affinity.forward).1
    (Or.inr (by decide))
  have h2 := (remove_node_transform_cases [3] [1] Affinity.forward).2.1
    (by decide)
  have h3 := (remove_node_transform_cases [1] [2] Affinity.forward).2.2.1
    (by decide) (by decide) (by decide)
  exact ⟨h1, by simpa using h2, h3⟩

/-- C3: rebasing a path `p` through `insert_node` at `ip` increments the
last component when `p = ip` or `ip` ends before `p`, and leaves every
other path unchanged.  In particular a point reference at path `[1]`,
offset 1, moves to path `[2]` with the same offset under `insert_node` at
`[0]`. -/
theorem insert_node_transform_cases (p ip : Path) (node : SNode)
    (aff : Affinity) :
    (p ≠ [] → (p = ip ∨ Path.endsBefore ip p = true) →
      Path.transform (some p) (Operation.insert_node ip node) aff
          = some (p.dropLast ++ [p.getLastD 0 + 1])) ∧
    (p ≠ ip → Path.endsBefore ip p = false →
      Path.transform (some p) (Operation.insert_node ip node) aff = some p) ∧
    Point.transformInsertNode (Point.mk [1] 1) [0] node aff
        = some (Point.mk [2] 1) := by
  refine ⟨?_, ?_, ?_⟩
  · intro hne hcase
    have hcond : (Path.equals ip p || Path.endsBefore ip p) = true := by
      rcases hcase with heq | heb
      · subst heq
        simp [Path.equals_self]
      · simp [heb]
    simp [Path.transform, hcond, Path.bumpLast_of_ne_nil p 1 hne]
  · intro hne heb
    have heq : Path.equals ip p = false := by
      simp only [Path.equals, beq_eq_false_iff_ne, ne_eq]
      exact fun hh => hne hh.symm
    simp [Path.transform, heq, heb]
  · simp [Point.transformInsertNode, Path.transform, Path.equals,
      Path.endsBefore, Path.bumpLast]

/-- C3 witness: the theorem applied at concrete inputs, including the point
reference example from the spec. -/
theorem insert_node_transform_cases_witness :
    Path.transform (some [1]) (Operation.insert_node [0] (SNode.text "x" []))
        Affinity.forward = some [2] ∧
    Path.transform (some [0]) (Operation.insert_node [1] (SNode.text "x" []))
        Affinity.forward = some [0] ∧
    Point.transformInsertNode (Point.mk [1] 1) [0] (SNode.text "x" [])
        Affinity.forward = some (Point.mk [2] 1) := by
  have h := insert_node_transform_cases [1] [0] (SNode.text "x" [])
    Affinity.forward
  have h2 := insert_node_transform_cases [0] [1] (SNode.text "x" [])
    Affinity.forward
  refine ⟨?_, h2.2.1 (by decide) (by decide), h.2.2⟩
  have h1 := h.1 (by decide) (Or.inr (by decide))
  simpa using h1

/-- C10: `Path.previous` fails exactly on the empty (root) path; on a
non-empty path whose last component is 0 it silently returns a path ending
in the invalid index -1 instead of failing. -/
theorem previous_root_and_negative :
    (∀ p : Path, Path.previous p = none ↔ p = []) ∧
    (∀ p : Path, p ≠ [] → p.getLastD 0 = 0 →
      Path.previous p = some (p.dropLast ++ [-1]) ∧
        Path.isValid (p.dropLast ++ [-1]) = false) := by
  constructor
  · intro p
    cases p with
    | nil => simp [Path.previous]
    | cons a l => simp [Path.previous]
  · intro p hne hlast
    cases p with
    | nil => exact absurd rfl hne
    | cons a l =>
        constructor
        · show some (Path.bumpLast (a :: l) (-1)) = _
          rw [Path.bumpLast_of_ne_nil (a :: l) (-1) hne, hlast]
          norm_num
        · simp [Path.isValid]

/-- C10 witness: the theorem applied at the concrete path `[0]`. -/
theorem previous_root_and_negative_witness :
    Path.previous [0] = some [-1] ∧ Path.isValid [-1] = false := by
  have h := previous_root_and_negative.2 [0] (by decide) (by decide)
  simpa using h

theorem Path.mem_levels_iff (p q : Path) : q ∈ Path.levels p ↔ q <+: p := by
  simp only [Path.levels, List.mem_map, List.mem_range]
  constructor
  · rintro ⟨i, _, rfl⟩
    exact List.take_prefix i p
  · intro hpre
    refine ⟨q.length, ?_, (List.prefix_iff_eq_take.mp hpre).symm⟩
    have := hpre.length_le
    omega

theorem Path.ancestors_eq (p : Path) :
    Path.ancestors p = (List.range p.length).map fun i => p.take i := by
  simp [Path.ancestors, Path.levels, List.range_succ]

theorem Path.mem_ancestors_iff (p q : Path) :
    q ∈ Path.ancestors p ↔ q <+: p ∧ q ≠ p := by
  rw [Path.ancestors_eq]
  simp only [List.mem_map, List.mem_range]
  constructor
  · rintro ⟨i, hi, rfl⟩
    refine ⟨List.take_prefix i p, ?_⟩
    intro heq
    have := congrArg List.length heq
    simp only [List.length_take] at this
    omega
  · rintro ⟨hpre, hne⟩
    have heq := List.prefix_iff_eq_take.mp hpre
    refine ⟨q.length, ?_, heq.symm⟩
    have hle := hpre.length_le
    rcases lt_or_eq_of_le hle with hlt | hl
    · exact hlt
    · exact absurd (by rw [heq, hl, List.take_length]) hne

/-- C6: the dirty paths of each operation kind: `split_node` dirties every
level of its path plus the next sibling; `insert_node`, `insert_text`,
`remove_text` and `set_node` dirty every level of their path; `merge_node`
dirties the previous sibling plus the strict ancestors; `remove_node`
dirties the strict ancestors; `set_selection` (the only other kind)
dirties nothing.  The levels of a path are exactly its prefixes and its
ancestors exactly its proper prefixes. -/
theorem getDirtyPaths_spec (path : Path) (pos offset : Int) (node : SNode)
    (props : List (String × Int)) (s : String) :
    (path ≠ [] →
      getDirtyPaths (Operation.split_node path pos)
          = some (Path.levels path ++
              [path.dropLast ++ [path.getLastD 0 + 1]])) ∧
    getDirtyPaths (Operation.insert_node path node)
        = some (Path.levels path) ∧
    getDirtyPaths (Operation.insert_text path offset s)
        = some (Path.levels path) ∧
    getDirtyPaths (Operation.remove_text path offset s)
        = some (Path.levels path) ∧
    getDirtyPaths (Operation.set_node path props)
        = some (Path.levels path) ∧
    (path ≠ [] →
      getDirtyPaths (Operation.merge_node path pos)
          = some ((path.dropLast ++ [path.getLastD 0 - 1]) ::
              Path.ancestors path)) ∧
    getDirtyPaths (Operation.remove_node path)
        = some (Path.ancestors path) ∧
    getDirtyPaths Operation.set_selection = some [] ∧
    (∀ q : Path, q ∈ Path.levels path ↔ q <+: path) ∧
    (∀ q : Path, q ∈ Path.ancestors path ↔ q <+: path ∧ q ≠ path) := by
  refine ⟨?_, rfl, rfl, rfl, rfl, ?_, rfl, rfl,
    fun q => Path.mem_levels_iff path q,
    fun q => Path.mem_ancestors_iff path q⟩
  · intro hne
    cases path with
    | nil => exact absurd rfl hne
    | cons a l =>
        simp [getDirtyPaths, Path.next,
          Path.bumpLast_of_ne_nil (a :: l) 1 hne]
  · intro hne
    cases path with
    | nil => exact absurd rfl hne
    | cons a l =>
        simp [getDirtyPaths, Path.previous,
          Path.bumpLast_of_ne_nil (a :: l) (-1) hne, Int.sub_eq_add_neg]

/-- C6 witness: the theorem applied at the concrete path `[1, 2]`. -/
theorem getDirtyPaths_spec_witness :
    getDirtyPaths (Operation.split_node [1, 2] 0)
        = some [[], [1], [1, 2], [1, 3]] ∧
    getDirtyPaths (Operation.merge_node [1, 2] 0)
        = some [[1, 1], [], [1]] ∧
    getDirtyPaths (Operation.remove_node [1, 2]) = some [[], [1]] := by
  have h := getDirtyPaths_spec [1, 2] 0 0 (SNode.text "" []) [] ""
  refine ⟨?_, ?_, ?_⟩
  · rw [h.1 (by decide)]; decide
  · rw [h.2.2.2.2.2.1 (by decide)]; decide
  · rw [h.2.2.2.2.2.2.1]; decide

/-- C4: the change notification is NOT coalesced — each `apply` schedules
its own microtask, so two `apply` calls in one synchronous turn invoke
`onChange` twice and reset the operation log twice after the turn, not
once as the claim (and the source comment above the `Promise.resolve`
call) state. -/
theorem apply_notification_not_coalesced :
    (endTurn (applySchedule (applySchedule (ApplyState.mk [] 0 0 0)
        (Operation.remove_node [0])) (Operation.remove_node [1]))).onChangeCalls
        = 2 ∧
    (endTurn (applySchedule (applySchedule (ApplyState.mk [] 0 0 0)
        (Operation.remove_node [0])) (Operation.remove_node [1]))).logResets
        = 2 ∧
    (endTurn (applySchedule (applySchedule (ApplyState.mk [] 0 0 0)
        (Operation.remove_node [0])) (Operation.remove_node [1]))).onChangeCalls
        ≠ 1 := by
  refine ⟨rfl, rfl, by decide⟩

/-- C9: with a collapsed selection, `addMark` replaces the pending marks
wholesale by the single-entry map for the new key (discarding any earlier
pending mark), applies no operation, and invokes `onChange` directly in
the same call. -/
theorem addMark_collapsed_replaces_marks (st : MarkEditorState) (sel : Range)
    (key : String) (value : Int) (hsel : st.selection = some sel)
    (hcol : Range.isCollapsed sel = true) :
    addMark st key value =
      MarkEditorState.mk st.selection (some [(key, value)])
        st.operationsApplied (st.onChangeCalls + 1) st.setNodeCalls := by
  cases st with
  | mk selection marks ops onc snc =>
      simp only at hsel
      subst hsel
      simp [addMark, hcol]

/-- C9 witness: the theorem applied at a state that already holds a pending
mark, which is discarded rather than merged. -/
theorem addMark_collapsed_replaces_marks_witness :
    addMark
        (MarkEditorState.mk
          (some (Range.mk (Point.mk [0] 1) (Point.mk [0] 1)))
          (some [("italic", 1)]) [] 0 []) "bold" 2 =
      MarkEditorState.mk
        (some (Range.mk (Point.mk [0] 1) (Point.mk [0] 1)))
        (some [("bold", 2)]) [] 1 [] :=
  addMark_collapsed_replaces_marks _ _ "bold" 2 rfl (by decide)

/-- C8: `splitNodes` at a point on a text leaf applies no operation when
the point sits at the start or end edge of that leaf (leaving the tree
untouched), and otherwise applies exactly one `split_node` at the point's
path with the point's offset as position. -/
theorem splitNodes_edge_noop (t : SNode) (pt : Point) (s : String)
    (props : List (String × Int))
    (hleaf : SNode.get? t pt.path = some (SNode.text s props)) :
    ((pt.offset = 0 ∨ pt.offset = (s.length : Int)) →
      splitNodesOps t pt = [] ∧
        applyOps? t (splitNodesOps t pt) = some t) ∧
    (pt.offset ≠ 0 → pt.offset ≠ (s.length : Int) →
      splitNodesOps t pt = [Operation.split_node pt.path pt.offset]) := by
  have hedge : isEdge t pt
      = (pt.offset == 0 || pt.offset == (s.length : Int)) := by
    simp [isEdge, hleaf]
  constructor
  · intro hcase
    have htrue : isEdge t pt = true := by
      rw [hedge]
      rcases hcase with h | h <;> simp [h]
    have hops : splitNodesOps t pt = [] := by simp [splitNodesOps, htrue]
    exact ⟨hops, by rw [hops]; rfl⟩
  · intro h0 hlen
    have hfalse : isEdge t pt = false := by
      rw [hedge]
      simp [h0, hlen]
    simp [splitNodesOps, hfalse]

/-- C8 witness: the theorem applied on the leaf `"ab"`: offset 0 is a
silent no-op, offset 1 applies exactly the one `split_node`. -/
theorem splitNodes_edge_noop_witness :
    splitNodesOps (SNode.element [] [SNode.text "ab" []])
        (Point.mk [0] 0) = [] ∧
    applyOps? (SNode.element [] [SNode.text "ab" []])
        (splitNodesOps (SNode.element [] [SNode.text "ab" []])
          (Point.mk [0] 0))
        = some (SNode.element [] [SNode.text "ab" []]) ∧
    splitNodesOps (SNode.element [] [SNode.text "ab" []])
        (Point.mk [0] 1) = [Operation.split_node [0] 1] := by
  have h := splitNodes_edge_noop (SNode.element [] [SNode.text "ab" []])
    (Point.mk [0] 0) "ab" [] rfl
  have h2 := splitNodes_edge_noop (SNode.element [] [SNode.text "ab" []])
    (Point.mk [0] 1) "ab" [] rfl
  have he := h.1 (Or.inl rfl)
  exact ⟨he.1, he.2, h2.2 (by decide) (by decide)⟩

theorem SNode.updateAt_get (p : Path) :
    ∀ (t n n2 : SNode) (f : SNode → Option SNode),
      SNode.get? t p = some n → f n = some n2 →
      ∃ t2, SNode.updateAt? t p f = some t2 ∧ SNode.get? t2 p = some n2 := by
  induction p with
  | nil =>
      intro t n n2 f hget hf
      simp only [SNode.get?, Option.some_inj] at hget
      subst hget
      exact ⟨n2, by simpa [SNode.updateAt?] using hf, by simp [SNode.get?]⟩
  | cons i rest ih =>
      intro t n n2 f hget hf
      cases t with
      | text s props => simp [SNode.get?] at hget
      | element props children =>
          by_cases h0 : 0 ≤ i
          · rw [SNode.get?, if_pos h0] at hget
            cases hc : children[i.toNat]? with
            | none => rw [hc] at hget; exact absurd hget (by simp)
            | some c =>
                rw [hc] at hget
                have hget2 : SNode.get? c rest = some n := hget
                obtain ⟨c2, hup, hres⟩ := ih c n n2 f hget2 hf
                refine ⟨SNode.element props (children.set i.toNat c2), ?_, ?_⟩
                · rw [SNode.updateAt?, if_pos h0, hc]
                  show (match SNode.updateAt? c rest f with
                    | some c2 => some (SNode.element props
                        (children.set i.toNat c2))
                    | none => none) = _
                  rw [hup]
                · have hlt : i.toNat < children.length :=
                    (List.getElem?_eq_some.mp hc).1
                  rw [SNode.get?, if_pos h0,
                    List.getElem?_set_eq_of_lt c2 hlt]
                  exact hres
          · rw [SNode.get?, if_neg h0] at hget
            exact absurd hget (by simp)

theorem SNode.childOp?_concat (t : SNode) (p : Path) (j : Int)
    (f : List SNode → Int → Option (List SNode)) :
    SNode.childOp? t (p ++ [j]) f =
      SNode.updateAt? t p fun n =>
        match n with
        | SNode.element props children =>
            (f children j).map fun cs => SNode.element props cs
        | SNode.text _ _ => none := by
  rw [SNode.childOp?, if_neg (by simp), List.dropLast_concat]
  simp [List.getLastD_concat]

theorem SNode.insertAt_empty_element (t : SNode) (p : Path)
    (props : List (String × Int)) (node : SNode)
    (hget : SNode.get? t p = some (SNode.element props [])) :
    ∃ t2, SNode.insertAt t (p ++ [0]) node = some t2 ∧
      SNode.get? t2 p = some (SNode.element props [node]) := by
  rw [SNode.insertAt, SNode.childOp?_concat]
  exact SNode.updateAt_get p t (SNode.element props [])
    (SNode.element props [node]) _ hget rfl

/-- C5 counterexample: on the leaf `"ab"` with the point at offset 0 (a
node boundary), the computed split path is `[0]` (no split occurred and
the path ref is unchanged), yet `insertNode` issues the insert at `[1]` —
the next sibling — not at the computed split path as the claim states. -/
theorem insertNode_point_boundary_counterexample :
    isEdge (SNode.element [] [SNode.text "ab" [], SNode.text "cd" []])
        (Point.mk [0] 0) = true ∧
    (splitNodesOps (SNode.element [] [SNode.text "ab" [], SNode.text "cd" []])
        (Point.mk [0] 0)).foldl pathRefTransform (some [0]) = some [0] ∧
    insertNodePointTarget
        (SNode.element [] [SNode.text "ab" [], SNode.text "cd" []])
        (Point.mk [0] 0) = some [1] ∧
    insertNodePointTarget
        (SNode.element [] [SNode.text "ab" [], SNode.text "cd" []])
        (Point.mk [0] 0) ≠ some [0] := by
  refine ⟨rfl, rfl, rfl, by decide⟩

/-- C5 (amended): in the point branch of `insertNode`, when the point was
already at a node boundary the insert is issued at the NEXT SIBLING of the
computed split path; otherwise it is issued at the computed split path
itself, which the forward-affinity rebase through the split has already
moved to the next sibling of the original path. -/
theorem insertNode_point_target_next (t : SNode) (pt : Point)
    (hne : pt.path ≠ []) :
    (isEdge t pt = true →
      insertNodePointTarget t pt = Path.next pt.path) ∧
    (isEdge t pt = false →
      insertNodePointTarget t pt
          = some (pt.path.dropLast ++ [pt.path.getLastD 0 + 1])) := by
  constructor
  · intro hedge
    simp [insertNodePointTarget, splitNodesOps, hedge]
  · intro hedge
    have hstep : pathRefTransform (some pt.path)
        (Operation.split_node pt.path pt.offset)
          = some (Path.bumpLast pt.path 1) := by
      simp [pathRefTransform, Path.transform, Path.equals_self]
    simp [insertNodePointTarget, splitNodesOps, hedge, hstep,
      Path.bumpLast_of_ne_nil pt.path 1 hne]

/-- C5 witness for the amended claim: both the boundary case (offset 0)
and the interior case (offset 1) issue the insert at `[1]`, the next
sibling of the original path `[0]`. -/
theorem insertNode_point_target_next_witness :
    insertNodePointTarget (SNode.element [] [SNode.text "ab" []])
        (Point.mk [0] 0) = some [1] ∧
    insertNodePointTarget (SNode.element [] [SNode.text "ab" []])
        (Point.mk [0] 1) = some [1] := by
  have h1 := (insertNode_point_target_next
    (SNode.element [] [SNode.text "ab" []]) (Point.mk [0] 0) (by decide)).1 rfl
  have h2 := (insertNode_point_target_next
    (SNode.element [] [SNode.text "ab" []]) (Point.mk [0] 1) (by decide)).2 rfl
  exact ⟨by rw [h1]; decide, by rw [h2]; decide⟩

/-- C7: `normalizeNode` visiting an element with zero children issues
exactly one transform, the insertion of a single empty text leaf at child
index 0, after which the element at that path has exactly that leaf as its
sole child; and any element entry that normalization leaves without issuing
a transform (a fixed point of the pass) has at least one child. -/
theorem normalize_empty_element_fills (t : SNode) (p : Path)
    (props : List (String × Int))
    (hget : SNode.get? t p = some (SNode.element props [])) :
    (SNode.insertAt t (p ++ [0]) (SNode.text "" [])).isSome = true ∧
    (∀ t2, SNode.insertAt t (p ++ [0]) (SNode.text "" []) = some t2 →
      normalizeNode? t (SNode.element props []) p
          = some (t2, [NTCall.insertNode (SNode.text "" []) (p ++ [0])]) ∧
      SNode.get? t2 p = some (SNode.element props [SNode.text "" []])) ∧
    (∀ (tt nodeN t3 : SNode) (q : Path) (calls : List NTCall),
      normalizeNode? tt nodeN q = some (t3, calls) → calls = [] →
      ∀ (eprops : List (String × Int)) (cs : List SNode),
        nodeN = SNode.element eprops cs → cs ≠ []) := by
  obtain ⟨t2, hins, hres⟩ :=
    SNode.insertAt_empty_element t p props (SNode.text "" []) hget
  refine ⟨by rw [hins]; rfl, ?_, ?_⟩
  · intro t2x hinsx
    rw [hins] at hinsx
    injection hinsx with ht2
    subst ht2
    constructor
    · rw [normalizeNode?]
      have happ : applyNTCall? t
          (NTCall.insertNode (SNode.text "" []) (p ++ [0])) = some t2 := by
        simpa [applyNTCall?, applyOp?] using hins
      simp [happ]
    · exact hres
  · intro tt nodeN t3 q calls hnorm hcalls eprops cs hnode
    subst hnode
    intro hcs
    subst hcs
    rw [normalizeNode?] at hnorm
    simp only [List.length_nil, if_pos rfl] at hnorm
    cases happ : applyNTCall? tt
        (NTCall.insertNode (SNode.text "" []) (q ++ [0])) with
    | none => rw [happ] at hnorm; exact absurd hnorm (by simp)
    | some t4 =>
        rw [happ] at hnorm
        subst hcalls
        simp at hnorm

/-- C7 witness: the theorem applied to a document whose single child is an
element with zero children: normalization issues exactly the one insert,
and the element ends with the single empty text child. -/
theorem normalize_empty_element_fills_witness :
    normalizeNode? (SNode.element [] [SNode.element [("k", 1)] []])
        (SNode.element [("k", 1)] []) [0]
      = some (SNode.element [] [SNode.element [("k", 1)] [SNode.text "" []]],
          [NTCall.insertNode (SNode.text "" []) ([0] ++ [0])]) ∧
    SNode.get?
        (SNode.element [] [SNode.element [("k", 1)] [SNode.text "" []]]) [0]
      = some (SNode.element [("k", 1)] [SNode.text "" []]) := by
  have h := (normalize_empty_element_fills
    (SNode.element [] [SNode.element [("k", 1)] []]) [0] [("k", 1)] rfl).2.1
    (SNode.element [] [SNode.element [("k", 1)] [SNode.text "" []]]) rfl
  exact h

end Slate
